import Mathlib

/-!
Shallow embedding of `src/randompca.cpp` (flashpca): a randomized
PCA / kernel-PCA engine built on dense matrices.

Modelling conventions:

* Matrix entries live in a `LinearOrderedField α` (instantiated at `ℚ` for
  executable checks and at `ℝ` where genuine square roots / exponentials are
  part of a claim).  C++ `double` arithmetic is modelled as exact field
  arithmetic; the claims treated here are structural/algebraic, not
  floating-point-specific.
* A dense matrix is a total function `ℕ → ℕ → α` together with explicitly
  passed dimensions, matching C-style indexed access; a vector is `ℕ → α`.
* External numerical primitives that the repository does not implement
  (the spec's "external collaborators": the Eigen library's SVD, symmetric
  eigensolver and column-pivoted QR, the boost RNG streams, `standardize`
  from util.hpp, libm's `sqrt`/`exp`) enter as oracle parameters, bundled in
  `SmallOracles` / `PcaExt`.  Everything composed from them follows the
  source line by line.
* `unsigned int` loop-counter arithmetic is modelled exactly, as arithmetic
  modulo `2^32` (`u32`, `usub1`), because claim C1 is about the unsigned
  countdown idiom in `pca_small`.
* The enum constants `METHOD_SVD`, `METHOD_EIGEN`, `KERNEL_LINEAR`,
  `KERNEL_RBF` and `STANDARDIZE_NONE` come from `randompca.hpp`/`util.hpp`,
  which are not among the staged sources; only their distinctness matters to
  any claim, so they are modelled as distinct integers.
-/

namespace FlashPCA

/-- Dense matrix with entries in `α`; dimensions are passed separately,
mirroring C-style indexing into Eigen's `MatrixXd`. -/
abbrev Mat (α : Type) : Type := ℕ → ℕ → α

/-- Dense vector with entries in `α` (Eigen's `VectorXd`). -/
abbrev Vec (α : Type) : Type := ℕ → α

/-- Modelled from the spec: decomposition-strategy constant `METHOD_SVD`
(the header defining it is not a staged source; only distinctness from
`METHOD_EIGEN` is used). -/
def METHOD_SVD : ℤ := 0

/-- Modelled from the spec: decomposition-strategy constant `METHOD_EIGEN`. -/
def METHOD_EIGEN : ℤ := 1

/-- Modelled from the spec: kernel-strategy constant `KERNEL_LINEAR`. -/
def KERNEL_LINEAR : ℤ := 0

/-- Modelled from the spec: kernel-strategy constant `KERNEL_RBF`. -/
def KERNEL_RBF : ℤ := 1

/-- Modelled from the spec: standardization selector "none". -/
def STANDARDIZE_NONE : ℤ := 0

/-- Number of values of a C `unsigned int` (32 bits on the targeted platforms). -/
def u32 : ℕ := 4294967296

/-- Subtraction of 1 in `unsigned int` arithmetic: `n - 1` computed modulo
`2^32` (this is what `d.size() - 1` and `--i` do on an unsigned counter). -/
def usub1 (n : ℕ) : ℕ := (n + (u32 - 1)) % u32

section MatrixOps

variable {α : Type} [LinearOrderedField α]

/-- Matrix product with inner dimension `inner`:
`(A * B) i j = ∑ k < inner, A i k * B k j`. -/
def matMul (inner : ℕ) (A B : Mat α) : Mat α :=
  fun i j => ∑ k ∈ Finset.range inner, A i k * B k j

/-- Matrix transpose. -/
def transposeM (A : Mat α) : Mat α := fun i j => A j i

/-- Squared Frobenius norm of the leading `r × c` block:
`∑ i < r, ∑ j < c, (A i j)^2`. -/
def frobSq (r c : ℕ) (A : Mat α) : α :=
  ∑ i ∈ Finset.range r, ∑ j ∈ Finset.range c, A i j ^ 2

/-- Squared Euclidean norm of column `j` over the first `r` rows
(`X.col(j).array().pow(2).sum()` in the source). -/
def colNormSq (r : ℕ) (X : Mat α) (j : ℕ) : α :=
  ∑ k ∈ Finset.range r, X k j ^ 2

/-- Source lines 21-29, `normalize`: scale every column `j < c` of `X` by
`1 / sqrt(colNormSq r X j)`; `sq` is the external `sqrt` routine. -/
def normalize (sq : α → α) (r c : ℕ) (X : Mat α) : Mat α :=
  fun i j => if j < c then X i j * (1 / sq (colNormSq r X j)) else X i j

/-- `conservativeResize(NoChange, ndim)` on a matrix, functionally: columns
past `ndim` are dropped (read back as `0` in this total-function model). -/
def truncCols (ndim : ℕ) (A : Mat α) : Mat α :=
  fun i j => if j < ndim then A i j else 0

/-- `conservativeResize(ndim)` on a vector: entries past `ndim` are dropped. -/
def truncVec (ndim : ℕ) (d : Vec α) : Vec α :=
  fun i => if i < ndim then d i else 0

end MatrixOps

/-!
The Small Decomposer, `pca_small` (source lines 31-65).

The loop counter of the Eigen-strategy reversal loop
(`for (unsigned int i = d.size() - 1; i != -1; --i)`) is modelled exactly:
`eigenLoopIdx fuel i` is the list of values the unsigned counter takes,
starting from `i`, stopping when it equals `(unsigned)-1 = 2^32 - 1`
(the sentinel the source compares against), decrementing modulo `2^32`;
`none` means the given fuel did not reach the sentinel.
-/

/-- Values visited by the unsigned countdown loop, with explicit fuel. -/
def eigenLoopIdx : ℕ → ℕ → Option (List ℕ)
  | 0, _ => none
  | fuel + 1, i =>
    if i = u32 - 1 then some []
    else Option.map (List.cons i) (eigenLoopIdx fuel (usub1 i))

section SmallDecomposer

variable {α : Type} [LinearOrderedField α]

/-- Body of the reversal loop, folded over the visited counter values:
at visit number `k` with counter value `i` it performs
`d(k) = eval(i); U.col(k) = evec.col(i); k++` (source lines 57-63). -/
def eigenRevWrite (eval : Vec α) (evec : Mat α) :
    List ℕ → ℕ → Mat α × Vec α → Mat α × Vec α
  | [], _, st => st
  | i :: rest, k, st =>
    eigenRevWrite eval evec rest (k + 1)
      ((fun row col => if col = k then evec row i else st.1 row col),
       Function.update st.2 k (eval i))

/-- The whole Eigen-strategy reversal of source lines 51-63: run the unsigned
countdown loop from `d.size() - 1` (computed in unsigned arithmetic) and fold
its body over the visited indices.  `s` is `eval.size()` (= `d.size()` after
the resize on line 53). -/
def eigenRevLoop (eval : Vec α) (evec : Mat α) (s : ℕ) (U0 : Mat α) (d0 : Vec α) :
    Mat α × Vec α :=
  eigenRevWrite eval evec ((eigenLoopIdx (s + 1) (usub1 s)).getD []) 0 (U0, d0)

/-- External decomposition primitives used by `pca_small` (Eigen library
calls; the repository does not implement them): thin-SVD factors of an
`r × c` matrix, and the symmetric eigensolver on an `s × s` matrix, whose
eigenvalues come out in increasing order (source comment, lines 49-50). -/
structure SmallOracles (α : Type) where
  svdU : Mat α → ℕ → ℕ → Mat α
  svdD : Mat α → ℕ → ℕ → Vec α
  eigVal : Mat α → ℕ → Vec α
  eigVec : Mat α → ℕ → Mat α

/-- Source lines 31-65, `pca_small`: given `B` of size `r × c`, dispatch on
`method`.  `METHOD_SVD`: `U = svd.matrixU()`, `d = singularValues^2`.
`METHOD_EIGEN`: form `BBT = B * Bᵀ`, eigendecompose, and reverse the ascending
output with the unsigned countdown loop.  Any other `method` leaves the
output parameters `U0`, `d0` untouched (no trailing `else` in the source). -/
def pca_small (O : SmallOracles α) (B : Mat α) (r c : ℕ) (method : ℤ)
    (U0 : Mat α) (d0 : Vec α) : Mat α × Vec α :=
  if method = METHOD_SVD then
    (O.svdU B r c, fun i => O.svdD B r c i ^ 2)
  else if method = METHOD_EIGEN then
    eigenRevLoop (O.eigVal (matMul c B (transposeM B)) r)
      (O.eigVec (matMul c B (transposeM B)) r) r U0 d0
  else (U0, d0)

end SmallDecomposer

section SubspaceIterator

variable {α : Type} [LinearOrderedField α]

/-- Source lines 210-230, the subspace-iteration loop of `RandomPCA::pca`
(`for (iter = 0; iter < maxiter; iter++)`), abstracted over the loop body
`step` (one body evaluation is `Yn = K*Y` followed by QR-orthogonalization or
column normalization; in the pipeline below `step` is `iterStep`).  Each
iteration computes `Yn = step Y`, the convergence metric
`(Y - Yn).array().square().sum() / Y.size()` with `Y.size() = N * k`, assigns
`Y = Yn`, and breaks when the metric drops below `tol`.  Returns the final
`Y`, the number of iterations executed, and whether the loop exited via the
`break`. -/
def pcaLoop (step : Mat α → Mat α) (N k : ℕ) (tol : α) : ℕ → Mat α → Mat α × ℕ × Bool
  | 0, Y => (Y, 0, false)
  | m + 1, Y =>
    let Yn := step Y
    let diff := (∑ i ∈ Finset.range N, ∑ j ∈ Finset.range k, (Y i j - Yn i j) ^ 2) /
      ((N * k : ℕ) : α)
    if diff < tol then (Yn, 1, true)
    else
      let r := pcaLoop step N k tol m Yn
      (r.1, r.2.1 + 1, r.2.2)

/-- The convergence metric of one loop iteration started from `Y`: the mean
squared elementwise difference between `Y` and `step Y`, i.e. the squared
Frobenius norm of their difference divided by `N * k`. -/
def convDiff (step : Mat α → Mat α) (N k : ℕ) (Y : Mat α) : α :=
  (∑ i ∈ Finset.range N, ∑ j ∈ Finset.range k, (Y i j - step Y i j) ^ 2) / ((N * k : ℕ) : α)

end SubspaceIterator

section MedianDist

variable {α : Type} [LinearOrderedField α]

/-- Insertion into an ascending sorted list. -/
def insertAsc (a : α) : List α → List α
  | [] => [a]
  | b :: l => if a ≤ b then a :: b :: l else b :: insertAsc a l

/-- Comparison sort by `≤`, the model of the `std::sort` call on the
flattened distance matrix (any correct comparison sort yields the same
list, so the insertion sort stands in for introsort). -/
def sortAsc : List α → List α
  | [] => []
  | a :: l => insertAsc a (sortAsc l)

/-- Middle-of-the-sorted-list extraction of source lines 107-112: with `m`
values, the median is `d[m/2]` for odd `m` and `(d[m/2-1] + d[m/2])/2` for
even `m`. -/
def middleOfSorted (ds : List α) (m : ℕ) : α :=
  if m % 2 = 0 then (ds.getD (m / 2 - 1) 0 + ds.getD (m / 2) 0) / 2
  else ds.getD (m / 2) 0

/-- Source lines 86-94: the acceptance sampling loop of `median_dist`.
`prop` is `(double)X.rows() / n`; `draws` is the stream of `dist(rng)`
values, one per scanned row; the loop scans the row indices in order,
appends each index whose draw satisfies `dist(rng) < prop`, and stops early
once `n` rows are accepted.  Returns the accepted row indices. -/
def sampleLoop (prop : α) (draws : ℕ → α) (n : ℕ) : List ℕ → List ℕ → List ℕ
  | [], acc => acc
  | i :: rest, acc =>
    if draws i < prop then
      if (acc ++ [i]).length = n then acc ++ [i]
      else sampleLoop prop draws n rest (acc ++ [i])
    else sampleLoop prop draws n rest acc

/-- The sampled matrix `X2` of source lines 81-97: when `n < rows`, row `r`
of `X2` is the `r`-th accepted row of `X`, with rows beyond the accepted
count left unassigned (`undef` models the uninitialized heap memory of the
`n`-row allocation); otherwise the Eigen assignment `X2 = X` makes `X2` a
copy of `X`. -/
def med_X2 (X : Mat α) (rows n : ℕ) (undef : Mat α) (draws : ℕ → α) : Mat α :=
  if n < rows then
    fun r c =>
      let acc := sampleLoop ((rows : α) / (n : α)) draws n (List.range rows) []
      if h : r < acc.length then X (acc.get ⟨r, h⟩) c else undef r c
  else X

/-- Row count of `X2`: `n` as declared, or `rows` after the else-branch
assignment resizes `X2` to the shape of `X`. -/
def med_n (rows n : ℕ) : ℕ := if n < rows then n else rows

/-- Source lines 99-112, applied to a matrix `X2` with `nn` rows: build
`D = R + Rᵀ - 2·X2·X2ᵀ` entrywise (`D i j = ‖xᵢ‖² + ‖xⱼ‖² - 2·xᵢ·xⱼ`),
flatten its `nn * nn` entries in column-major order (the order
`std::sort(D.data(), d + m)` sees), sort, and take the middle with
`m = D.size() = nn * nn`. -/
def medianOfD (X2 : Mat α) (nn cols : ℕ) : α :=
  middleOfSorted
    (sortAsc ((List.range nn).flatMap (fun j => (List.range nn).map (fun i =>
      (∑ t ∈ Finset.range cols, X2 i t ^ 2) + (∑ t ∈ Finset.range cols, X2 j t ^ 2) -
        2 * ∑ t ∈ Finset.range cols, X2 i t * X2 j t))))
    (nn * nn)

/-- Source lines 70-118, `median_dist`: sample (with the given stream of
uniform draws standing for the freshly seeded `mt19937` + uniform
distribution), then take the median of the entries of `D`. -/
def median_dist (X : Mat α) (rows cols n : ℕ) (undef : Mat α) (draws : ℕ → α) : α :=
  medianOfD (med_X2 X rows n undef draws) (med_n rows n) cols

/-- Specification-side median: the list of all pairwise squared Euclidean
distances `∑ t, (X2 i t - X2 j t)²` among the rows of `X2` (ordered pairs,
same column-major enumeration), sorted ascending; the median is the exact
middle element for an odd count and the average of the two middle elements
for an even count. -/
def pairwiseSqDistMedian (X2 : Mat α) (nn cols : ℕ) : α :=
  middleOfSorted
    (sortAsc ((List.range nn).flatMap (fun j => (List.range nn).map (fun i =>
      ∑ t ∈ Finset.range cols, (X2 i t - X2 j t) ^ 2))))
    ((List.range nn).flatMap (fun j => (List.range nn).map (fun i =>
      ∑ t ∈ Finset.range cols, (X2 i t - X2 j t) ^ 2))).length

end MedianDist

section KernelBuilder

variable {α : Type} [LinearOrderedField α]

/-- The double-centering factor `I - 𝟙𝟙ᵀ/n` of source lines 134-136
(`I = ones.asDiagonal()`, `M = ones*onesᵀ/n`). -/
def centerFactor (n : ℕ) : Mat α := fun i j => (if i = j then 1 else 0) - 1 / (n : α)

/-- Source lines 120-139, `rbf_kernel`: `D i j = ‖xᵢ‖² + ‖xⱼ‖² - 2·xᵢ·xⱼ`
(via `R + Rᵀ - 2·X·Xᵀ`), scaled entrywise by `1/(-1·σ·σ)`, exponentiated
entrywise (`ex` models the external `exp`), then optionally double-centered:
`K = (I - M)·K·(I - M)`. -/
def rbf_kernel (ex : α → α) (X : Mat α) (rows cols : ℕ) (sigma : α)
    (rbf_center : Bool) : Mat α :=
  let K : Mat α := fun i j => ex
    (((∑ t ∈ Finset.range cols, X i t ^ 2) + (∑ t ∈ Finset.range cols, X j t ^ 2) -
      2 * ∑ t ∈ Finset.range cols, X i t * X j t) / (-1 * sigma * sigma))
  if rbf_center then matMul rows (matMul rows (centerFactor rows) K) (centerFactor rows)
  else K

end KernelBuilder

section SketchGenerator

variable {α : Type} [LinearOrderedField α] {σ : Type}

/-- Inner loop of source lines 14-16: fill `todo` consecutive entries of row
`i` starting at column `j`, threading the RNG state through each draw. -/
def fillRowFrom (next : σ → α × σ) (i : ℕ) : ℕ → ℕ → σ → Mat α → Mat α × σ
  | 0, _, s, G => (G, s)
  | t + 1, j, s, G =>
    fillRowFrom next i t (j + 1) (next s).2
      (fun a b => if a = i ∧ b = j then (next s).1 else G a b)

/-- Outer loop of source lines 14-16: fill `todo` consecutive rows starting
at row `i`, each with `cols` draws. -/
def fillRowsFrom (next : σ → α × σ) (cols : ℕ) : ℕ → ℕ → σ → Mat α → Mat α × σ
  | 0, _, s, G => (G, s)
  | t + 1, i, s, G =>
    fillRowsFrom next cols t (i + 1) (fillRowFrom next i cols 0 s G).2
      (fillRowFrom next i cols 0 s G).1

/-- Source lines 5-18, `make_gaussian`: seed a fresh generator from `seed`
exactly once (`rng.seed(seed)`), then fill a `rows × cols` matrix in
row-major element order with successive variates.  `seedInit` and `next`
model the external boost `mt19937` + `normal_distribution` variate
generator, with generator state type `σ`. -/
def make_gaussian (seedInit : ℤ → σ) (next : σ → α × σ) (rows cols : ℕ) (seed : ℤ) : Mat α :=
  (fillRowsFrom next cols rows 0 (seedInit seed) (fun _ _ => 0)).1

/-- State advance of the variate generator (one consumed draw). -/
def rngShift (next : σ → α × σ) (s : σ) : σ := (next s).2

/-- The `k`-th variate (0-based) produced from generator state `s`. -/
def nthDraw (next : σ → α × σ) (s : σ) (k : ℕ) : α := (next ((rngShift next)^[k] s)).1

end SketchGenerator

/-- External collaborators of `RandomPCA::pca`: libm `sqrt`/`exp`, the
`standardize` / `standardize_transpose` routines of util.hpp (not staged
sources), the seeded boost RNG streams (`seedInit`/`next` for the Gaussian
variates of `make_gaussian`, `unif seed` for the uniform draws of
`median_dist`), Eigen's `ColPivHouseholderQR` thin Q-factor `qrQ Y rows k`,
Eigen's `JacobiSVD` and `SelfAdjointEigenSolver` outputs, and the contents
`undef` of uninitialized heap memory read through unassigned `X2` rows. -/
structure PcaExt (σ α : Type) where
  sqrtFn : α → α
  expFn : α → α
  standX : Mat α → Mat α
  standXt : Mat α → Mat α
  seedInit : ℤ → σ
  next : σ → α × σ
  unif : ℤ → ℕ → α
  qrQ : Mat α → ℕ → ℕ → Mat α
  svdU : Mat α → ℕ → ℕ → Mat α
  svdD : Mat α → ℕ → ℕ → Vec α
  eigVal : Mat α → ℕ → Vec α
  eigVec : Mat α → ℕ → Mat α
  undef : Mat α

/-- Arguments of `RandomPCA::pca` (source line 141-144) other than the
`transpose` flag, which the pipeline receives separately because lines
148-153 overwrite it; plus the engine-object state read by the call:
`V0` (the persisted `V`, only overwritten when computed) and `d0` (the
persisted `d`, handed to `pca_small` as its in-out parameter).
`save_kernel` is omitted: writing `kernel.txt` has no effect on any result.
`X`/`rows`/`cols` are the input matrix and its dimensions. -/
structure PcaArgs (α : Type) where
  X : Mat α
  rows : ℕ
  cols : ℕ
  method : ℤ
  ndim : ℕ
  nextra : ℕ
  maxiter : ℕ
  tol : α
  seed : ℤ
  kernel : ℤ
  sigma : α
  rbf_center : Bool
  rbf_sample : ℕ
  do_orth : Bool
  do_loadings : Bool
  stand_method : ℤ
  V0 : Mat α
  d0 : Vec α

section Pipeline

variable {α : Type} [LinearOrderedField α] {σ : Type}

/-- Source lines 148-153: the `transpose` flag actually used by the rest of
the call; forced to `false` when the kernel is not linear. -/
def effTranspose (kernel : ℤ) (transpose : Bool) : Bool :=
  if kernel = KERNEL_LINEAR then transpose else false

/-- Source lines 158-169: the matrix the rest of the pipeline works on; the
external standardization (selected by `stand_method`, per orientation)
rewrites `X` in place unless standardization is off. -/
def effX (E : PcaExt σ α) (A : PcaArgs α) (tr : Bool) : Mat α :=
  if tr then (if A.stand_method = STANDARDIZE_NONE then A.X else E.standXt A.X)
  else (if A.stand_method = STANDARDIZE_NONE then A.X else E.standX A.X)

/-- Source lines 162/168: `N = X.cols()` in transposed orientation,
`N = X.rows()` otherwise. -/
def effN (A : PcaArgs α) (tr : Bool) : ℕ := if tr then A.cols else A.rows

/-- `total_dim = ndim + nextra` (source line 171). -/
def totdim (A : PcaArgs α) : ℕ := A.ndim + A.nextra

/-- The unsigned-int value `N - 1` cast to the scalar field, as used by the
divisions on lines 195, 247, 255 and 266. -/
def nm1 (A : PcaArgs α) (tr : Bool) : α := ((usub1 (effN A tr) : ℕ) : α)

/-- Source lines 171-175: `R = make_gaussian(X.cols(), total_dim, seed)`,
`Y = X * R`, `normalize(Y)`. -/
def sketchY0 (E : PcaExt σ α) (A : PcaArgs α) (tr : Bool) : Mat α :=
  normalize E.sqrtFn A.rows (totdim A)
    (matMul A.cols (effX E A tr) (make_gaussian E.seedInit E.next A.cols (totdim A) A.seed))

/-- Source lines 182-189: the RBF bandwidth actually used: when the
configured `sigma` is zero it is `sqrt(median_dist(X, fmin(rbf_sample, N)))`,
otherwise the configured value. -/
def effSigma (E : PcaExt σ α) (A : PcaArgs α) (tr : Bool) : α :=
  if A.sigma = 0 then
    E.sqrtFn (median_dist (effX E A tr) A.rows A.cols (min A.rbf_sample (effN A tr))
      E.undef (E.unif A.seed))
  else A.sigma

/-- Source lines 179-196: the kernel matrix `K`: `rbf_kernel` for
`KERNEL_RBF`, else `X * Xᵀ / (N - 1)`. -/
def kernelK (E : PcaExt σ α) (A : PcaArgs α) (tr : Bool) : Mat α :=
  if A.kernel = KERNEL_RBF then
    rbf_kernel E.expFn (effX E A tr) A.rows A.cols (effSigma E A tr) A.rbf_center
  else fun i j => matMul A.cols (effX E A tr) (transposeM (effX E A tr)) i j / nm1 A tr

/-- Source line 199: `trace = K.diagonal().array().sum()`, recorded before
the `1/(N-1)` scaling of `d`. -/
def traceK (E : PcaExt σ α) (A : PcaArgs α) (tr : Bool) : α :=
  ∑ i ∈ Finset.range A.rows, kernelK E A tr i i

/-- Source lines 213-223, one body evaluation of the iteration loop:
`Yn = K * Y`, then either the thin QR Q-factor of `Yn` (`do_orth`) or
column normalization of `Yn`. -/
def iterStep (E : PcaExt σ α) (A : PcaArgs α) (tr : Bool) (Y : Mat α) : Mat α :=
  if A.do_orth then E.qrQ (matMul A.rows (kernelK E A tr) Y) A.rows (totdim A)
  else normalize E.sqrtFn A.rows (totdim A) (matMul A.rows (kernelK E A tr) Y)

/-- Source lines 210-230: the subspace-iteration loop, run for at most
`maxiter` iterations from the normalized sketch. -/
def loopOut (E : PcaExt σ α) (A : PcaArgs α) (tr : Bool) : Mat α × ℕ × Bool :=
  pcaLoop (iterStep E A tr) A.rows (totdim A) A.tol A.maxiter (sketchY0 E A tr)

/-- Source lines 232-238: `Q`, the thin QR Q-factor of the final iterate. -/
def bigQ (E : PcaExt σ α) (A : PcaArgs α) (tr : Bool) : Mat α :=
  E.qrQ (loopOut E A tr).1 A.rows (totdim A)

/-- Source line 240: `B = Qᵀ * X`, of size `total_dim × cols`. -/
def smallB (E : PcaExt σ α) (A : PcaArgs α) (tr : Bool) : Mat α :=
  matMul A.rows (transposeM (bigQ E A tr)) (effX E A tr)

/-- The Eigen decomposition primitives of `E`, bundled for `pca_small`. -/
def smallOracles (E : PcaExt σ α) : SmallOracles α :=
  ⟨E.svdU, E.svdD, E.eigVal, E.eigVec⟩

/-- Source line 244: `pca_small(B, method, Et, d, verbose)`, with `Et` a
fresh (empty) matrix and `d` the engine's persisted vector `d0`. -/
def smallOut (E : PcaExt σ α) (A : PcaArgs α) (tr : Bool) : Mat α × Vec α :=
  pca_small (smallOracles E) (smallB E A tr) (totdim A) A.cols A.method (fun _ _ => 0) A.d0

/-- Source line 247: `d = d.array() / (N - 1)`. -/
def dScaled (E : PcaExt σ α) (A : PcaArgs α) (tr : Bool) : Vec α :=
  fun i => (smallOut E A tr).2 i / nm1 A tr

/-- `Q * Et` (the `U` of line 262 in non-transposed orientation, the `V` of
line 251 in transposed orientation). -/
def qet (E : PcaExt σ α) (A : PcaArgs α) (tr : Bool) : Mat α :=
  matMul (totdim A) (bigQ E A tr) (smallOut E A tr).1

/-- The diagonal scaling `1 / (sqrt(d) * sqrt(N - 1))` of lines 255/266. -/
def sInv (E : PcaExt σ α) (A : PcaArgs α) (tr : Bool) : Vec α :=
  fun j => 1 / (E.sqrtFn (dScaled E A tr j) * E.sqrtFn (nm1 A tr))

/-- Source lines 249-270: `U` before truncation: `Q*Et` in non-transposed
orientation; `P * Dinv = (Xᵀ*(Q*Et)) * Dinv` in transposed orientation. -/
def fullU (E : PcaExt σ α) (A : PcaArgs α) (tr : Bool) : Mat α :=
  if tr then
    fun i j => matMul A.rows (transposeM (effX E A tr)) (qet E A tr) i j * sInv E A tr j
  else qet E A tr

/-- Source lines 249-270: `P` before truncation: `U * diag(d)` in
non-transposed orientation; `Xᵀ * V` in transposed orientation. -/
def fullP (E : PcaExt σ α) (A : PcaArgs α) (tr : Bool) : Mat α :=
  if tr then matMul A.rows (transposeM (effX E A tr)) (qet E A tr)
  else fun i j => qet E A tr i j * dScaled E A tr j

/-- Source lines 249-270: `V` before truncation: `Q*Et` in transposed
orientation; in non-transposed orientation `Xᵀ*U*Dinv` when loadings are
requested, and otherwise the engine's persisted `V0`, untouched. -/
def fullV (E : PcaExt σ α) (A : PcaArgs α) (tr : Bool) : Mat α :=
  if tr then qet E A tr
  else if A.do_loadings then
    fun i j => matMul A.rows (transposeM (effX E A tr)) (qet E A tr) i j * sInv E A tr j
  else A.V0

/-- The engine-object fields `RandomPCA::pca` leaves behind. -/
structure PcaResult (α : Type) where
  U : Mat α
  V : Mat α
  P : Mat α
  d : Vec α
  pve : Vec α
  trace : α

/-- Source lines 155-276 after the `transpose` flag has been forced:
the whole pipeline in terms of the effective orientation `tr`, ending with
the truncation of `P`, `U`, `V`, `d` to `ndim` columns/entries (lines
272-275) and `pve = d.array() / trace` (line 276). -/
def pcaCore (E : PcaExt σ α) (A : PcaArgs α) (tr : Bool) : PcaResult α :=
  { U := truncCols A.ndim (fullU E A tr)
    V := truncCols A.ndim (fullV E A tr)
    P := truncCols A.ndim (fullP E A tr)
    d := truncVec A.ndim (dScaled E A tr)
    pve := fun i => truncVec A.ndim (dScaled E A tr) i / traceK E A tr
    trace := traceK E A tr }

/-- Source lines 141-277, `RandomPCA::pca`: force the `transpose` flag
(lines 148-153), then run the pipeline in the resulting orientation. -/
def RandomPCA.pca (E : PcaExt σ α) (A : PcaArgs α) (transpose : Bool) : PcaResult α :=
  pcaCore E A (effTranspose A.kernel transpose)

end Pipeline

/-- Concrete external collaborators over `ℝ` used to witness C3: libm
`sqrt`/`exp` are the real functions, everything else trivial. -/
noncomputable def extC3 : PcaExt ℕ ℝ :=
  ⟨Real.sqrt, Real.exp, id, id, fun _ => 0, fun s => (1, s), fun _ _ => 0,
   fun M _ _ => M, fun M _ _ => M, fun _ _ _ => fun _ => 0,
   fun _ _ => fun _ => 0, fun M _ => M, fun _ _ => 0⟩

/-- Concrete argument record used to witness C3: RBF bandwidth configured
to `0`, so the median heuristic engages. -/
noncomputable def argsC3 : PcaArgs ℝ :=
  ⟨fun _ _ => 1, 2, 1, METHOD_EIGEN, 1, 0, 0, 0, 0, KERNEL_RBF, 0, false, 1,
   false, false, STANDARDIZE_NONE, fun _ _ => 0, fun _ => 0⟩

/-- Concrete external collaborators over `ℝ` for the C4 counterexample:
real `sqrt`/`exp`; the QR oracle returns the matrix with single column
`(1, 0)ᵀ` — the genuine thin Q-factor of the iterate produced by this
input — and the eigensolver returns the genuine eigendecomposition of the
`1 × 1` matrix it receives (`eigval = M 0 0`, eigvec `1`). -/
noncomputable def extC4x : PcaExt ℕ ℝ :=
  ⟨Real.sqrt, Real.exp, id, id, fun _ => 0, fun s => (1, s), fun _ _ => 0,
   fun _ _ _ => fun i j => if i = 0 ∧ j = 0 then 1 else 0,
   fun M _ _ => M, fun _ _ _ => fun _ => 0,
   fun M _ => fun _ => M 0 0, fun _ _ => fun i j => if i = j then 1 else 0,
   fun _ _ => 0⟩

/-- Concrete arguments for the C4 counterexample: the `2 × 1` data matrix
`(100, 0)ᵀ`, RBF kernel with `sigma = 3`, no centering, `ndim = 1`,
`nextra = 0`, `maxiter = 0`, no standardization. -/
noncomputable def argsC4x : PcaArgs ℝ :=
  ⟨fun i j => if i = 0 ∧ j = 0 then 100 else 0, 2, 1, METHOD_EIGEN, 1, 0, 0, 0, 0,
   KERNEL_RBF, 3, false, 1, false, false, STANDARDIZE_NONE, fun _ _ => 0, fun _ => 0⟩

/-- Concrete external collaborators over `ℚ` used to witness the amended C4:
the QR oracle returns the single orthonormal column `(1, 0)ᵀ` and the
eigensolver the genuine eigendecomposition of its `1 × 1` input. -/
def extC4 : PcaExt ℕ ℚ :=
  ⟨id, id, id, id, fun _ => 0, fun s => (1, s), fun _ _ => 0,
   fun _ _ _ => fun i j => if i = 0 ∧ j = 0 then 1 else 0,
   fun M _ _ => M, fun _ _ _ => fun _ => 0,
   fun M _ => fun _ => M 0 0, fun _ _ => fun i j => if i = j then 1 else 0,
   fun _ _ => 0⟩

/-- Concrete arguments used to witness the amended C4: the `2 × 1` data
matrix `(1, 0)ᵀ`, linear kernel, `ndim = 1`, `nextra = 0`. -/
def argsC4 : PcaArgs ℚ :=
  ⟨fun i j => if i = 0 ∧ j = 0 then 1 else 0, 2, 1, METHOD_EIGEN, 1, 0, 0, 0, 0,
   KERNEL_LINEAR, 1, false, 1, false, false, STANDARDIZE_NONE, fun _ _ => 0, fun _ => 0⟩

/-- Concrete external collaborators over `ℚ` used to witness C5. -/
def extC5 : PcaExt ℕ ℚ :=
  ⟨id, id, id, id, fun _ => 0, fun s => (1, s), fun _ _ => 0,
   fun M _ _ => M, fun M _ _ => M, fun _ _ _ => fun _ => 0,
   fun _ _ => fun _ => 0, fun M _ => M, fun _ _ => 0⟩

/-- Concrete argument record used to witness C5: a nonlinear (RBF) kernel. -/
def argsC5 : PcaArgs ℚ :=
  ⟨fun _ _ => 1, 1, 1, METHOD_EIGEN, 1, 0, 0, 0, 0, KERNEL_RBF, 1, false, 1,
   false, false, STANDARDIZE_NONE, fun _ _ => 0, fun _ => 0⟩

/-- Concrete small-decomposer oracle used to witness C1: the eigensolver
returns the strictly increasing eigenvalues `0, 1, 2, ...` with identity
eigenvectors. -/
def oracleC1 : SmallOracles ℚ :=
  ⟨fun _ _ _ => fun _ _ => 0, fun _ _ _ => fun _ => 0,
   fun _ _ => fun i => (i : ℚ), fun _ _ => fun i j => if i = j then 1 else 0⟩

/-! Basic facts about unsigned-int arithmetic and the countdown loop. -/

theorem usub1_of_pos (n : ℕ) (h1 : 1 ≤ n) (h2 : n < u32) : usub1 n = n - 1 := by
  have hu : u32 = 4294967296 := rfl
  have hn : n + (u32 - 1) = (n - 1) + u32 := by omega
  rw [usub1, hn, Nat.add_mod_right, Nat.mod_eq_of_lt (by omega)]

theorem eigenLoopIdx_succ (fuel i : ℕ) :
    eigenLoopIdx (fuel + 1) i =
      if i = u32 - 1 then some []
      else Option.map (List.cons i) (eigenLoopIdx fuel (usub1 i)) := rfl

theorem eigenLoopIdx_step (i : ℕ) (hi : i < u32 - 1) :
    eigenLoopIdx (i + 2) i = some ((List.range (i + 1)).reverse) := by
  induction i with
  | zero =>
    have hu : u32 = 4294967296 := rfl
    have h0 : (0 : ℕ) ≠ u32 - 1 := by omega
    have h1 : usub1 0 = u32 - 1 := by
      rw [usub1, Nat.zero_add, Nat.mod_eq_of_lt (by omega)]
    rw [show (0 : ℕ) + 2 = 1 + 1 from rfl, eigenLoopIdx_succ, if_neg h0, h1,
      eigenLoopIdx_succ, if_pos rfl]
    simp [List.range_succ]
  | succ n ih =>
    have hu : u32 = 4294967296 := rfl
    have hne : (n + 1 : ℕ) ≠ u32 - 1 := Nat.ne_of_lt hi
    have hdec : usub1 (n + 1) = n := usub1_of_pos (n + 1) (by omega) (by omega)
    have hn : n < u32 - 1 := by omega
    have hrev : (List.range (n + 2)).reverse = (n + 1) :: (List.range (n + 1)).reverse := by
      rw [List.range_succ, List.reverse_append]
      simp
    rw [show n + 1 + 2 = (n + 2) + 1 from rfl, eigenLoopIdx_succ, if_neg hne, hdec,
      ih hn, hrev]
    rfl

/-- For any unsigned size `s < 2^32`, the countdown loop started at the
unsigned value `s - 1` terminates (reaches the sentinel within `s + 1`
steps) and visits exactly `s-1, s-2, ..., 0`. -/
theorem eigenLoopIdx_complete (s : ℕ) (hs : s < u32) :
    eigenLoopIdx (s + 1) (usub1 s) = some ((List.range s).reverse) := by
  cases s with
  | zero =>
    have hu : u32 = 4294967296 := rfl
    have h1 : usub1 0 = u32 - 1 := by
      rw [usub1, Nat.zero_add, Nat.mod_eq_of_lt (by omega)]
    rw [h1, eigenLoopIdx_succ, if_pos rfl]
    simp
  | succ n =>
    have hu : u32 = 4294967296 := rfl
    have h1 : usub1 (n + 1) = n := usub1_of_pos (n + 1) (by omega) hs
    have h4 : n < u32 - 1 := by omega
    rw [h1, show n + 1 + 1 = n + 2 from rfl]
    exact eigenLoopIdx_step n h4

theorem getD_reverse_range (r k : ℕ) (hk : k < r) :
    ((List.range r).reverse).getD k 0 = r - 1 - k := by
  induction r generalizing k with
  | zero => omega
  | succ n ih =>
    have hrev : (List.range (n + 1)).reverse = n :: (List.range n).reverse := by
      rw [List.range_succ, List.reverse_append]
      simp
    rw [hrev]
    cases k with
    | zero => simp
    | succ m =>
      have hm : m < n := by omega
      simp only [List.getD_cons_succ]
      rw [ih m hm]
      omega

section RevWriteFacts

variable {α : Type} [LinearOrderedField α]

theorem eigenRevWrite_d (eval : Vec α) (evec : Mat α) :
    ∀ (L : List ℕ) (k0 : ℕ) (st : Mat α × Vec α) (j : ℕ),
    (eigenRevWrite eval evec L k0 st).2 j =
      if k0 ≤ j ∧ j < k0 + L.length then eval (L.getD (j - k0) 0) else st.2 j := by
  intro L
  induction L with
  | nil =>
    intro k0 st j
    simp only [eigenRevWrite, List.length_nil, Nat.add_zero]
    rw [if_neg (by omega)]
  | cons i rest ih =>
    intro k0 st j
    rw [eigenRevWrite, ih]
    by_cases h1 : k0 + 1 ≤ j ∧ j < k0 + 1 + rest.length
    · rw [if_pos h1,
        if_pos (by simp only [List.length_cons]; omega : k0 ≤ j ∧ j < k0 + (i :: rest).length)]
      have hj : j - k0 = (j - (k0 + 1)) + 1 := by omega
      rw [hj, List.getD_cons_succ]
    · rw [if_neg h1]
      simp only [Function.update_apply]
      by_cases h2 : j = k0
      · subst h2
        rw [if_pos rfl, if_pos (by simp only [List.length_cons]; omega)]
        simp
      · rw [if_neg h2, if_neg (by simp only [List.length_cons]; omega)]

theorem eigenRevWrite_U (eval : Vec α) (evec : Mat α) :
    ∀ (L : List ℕ) (k0 : ℕ) (st : Mat α × Vec α) (row col : ℕ),
    (eigenRevWrite eval evec L k0 st).1 row col =
      if k0 ≤ col ∧ col < k0 + L.length then evec row (L.getD (col - k0) 0)
      else st.1 row col := by
  intro L
  induction L with
  | nil =>
    intro k0 st row col
    simp only [eigenRevWrite, List.length_nil, Nat.add_zero]
    rw [if_neg (by omega)]
  | cons i rest ih =>
    intro k0 st row col
    rw [eigenRevWrite, ih]
    by_cases h1 : k0 + 1 ≤ col ∧ col < k0 + 1 + rest.length
    · rw [if_pos h1,
        if_pos (by simp only [List.length_cons]; omega : k0 ≤ col ∧ col < k0 + (i :: rest).length)]
      have hj : col - k0 = (col - (k0 + 1)) + 1 := by omega
      rw [hj, List.getD_cons_succ]
    · rw [if_neg h1]
      show (if col = k0 then evec row i else st.1 row col) =
        if k0 ≤ col ∧ col < k0 + (i :: rest).length then evec row ((i :: rest).getD (col - k0) 0)
        else st.1 row col
      by_cases h2 : col = k0
      · subst h2
        rw [if_pos rfl, if_pos (by simp only [List.length_cons]; omega)]
        simp
      · rw [if_neg h2, if_neg (by simp only [List.length_cons]; omega)]

theorem eigenRevLoop_d (eval : Vec α) (evec : Mat α) (s : ℕ) (U0 : Mat α) (d0 : Vec α)
    (hs : s < u32) (k : ℕ) (hk : k < s) :
    (eigenRevLoop eval evec s U0 d0).2 k = eval (s - 1 - k) := by
  rw [eigenRevLoop, eigenLoopIdx_complete s hs]
  rw [eigenRevWrite_d]
  rw [if_pos (by simp only [Option.getD_some, List.length_reverse, List.length_range]; omega)]
  simp only [Option.getD_some, Nat.sub_zero]
  rw [getD_reverse_range s k hk]

theorem eigenRevLoop_U (eval : Vec α) (evec : Mat α) (s : ℕ) (U0 : Mat α) (d0 : Vec α)
    (hs : s < u32) (row k : ℕ) (hk : k < s) :
    (eigenRevLoop eval evec s U0 d0).1 row k = evec row (s - 1 - k) := by
  rw [eigenRevLoop, eigenLoopIdx_complete s hs]
  rw [eigenRevWrite_U]
  rw [if_pos (by simp only [Option.getD_some, List.length_reverse, List.length_range]; omega)]
  simp only [Option.getD_some, Nat.sub_zero]
  rw [getD_reverse_range s k hk]

end RevWriteFacts

/-- C1: for the Eigen strategy, `pca_small` outputs `d` and `U` as the exact
reversal of the eigensolver's ascending-order output: the unsigned countdown
loop (comparing an unsigned counter against `-1`) terminates and visits each
index from `size-1` down to `0` exactly once; `d(k)` is `eval(size-1-k)` and
`U.col(k)` is `evec.col(size-1-k)`; and when the eigensolver's eigenvalues are
strictly increasing, `d` is strictly decreasing, with eigenvector columns
permuted in lock-step. -/
theorem pca_small_eigen_reverses {α : Type} [LinearOrderedField α]
    (O : SmallOracles α) (B : Mat α) (r c : ℕ) (U0 : Mat α) (d0 : Vec α)
    (hr : 1 ≤ r) (hru : r < u32)
    (hmono : ∀ i j, i < j → j < r →
      O.eigVal (matMul c B (transposeM B)) r i < O.eigVal (matMul c B (transposeM B)) r j) :
    eigenLoopIdx (r + 1) (usub1 r) = some ((List.range r).reverse) ∧
    (∀ k, k < r →
      (pca_small O B r c METHOD_EIGEN U0 d0).2 k =
        O.eigVal (matMul c B (transposeM B)) r (r - 1 - k)) ∧
    (∀ k row, k < r →
      (pca_small O B r c METHOD_EIGEN U0 d0).1 row k =
        O.eigVec (matMul c B (transposeM B)) r row (r - 1 - k)) ∧
    (∀ k j, k < j → j < r →
      (pca_small O B r c METHOD_EIGEN U0 d0).2 j <
        (pca_small O B r c METHOD_EIGEN U0 d0).2 k) := by
  have hps : pca_small O B r c METHOD_EIGEN U0 d0 =
      eigenRevLoop (O.eigVal (matMul c B (transposeM B)) r)
        (O.eigVec (matMul c B (transposeM B)) r) r U0 d0 := by
    rw [pca_small, if_neg (by decide : METHOD_EIGEN ≠ METHOD_SVD), if_pos rfl]
  refine ⟨eigenLoopIdx_complete r hru, ?_, ?_, ?_⟩
  · intro k hk
    rw [hps, eigenRevLoop_d _ _ _ _ _ hru k hk]
  · intro k row hk
    rw [hps, eigenRevLoop_U _ _ _ _ _ hru row k hk]
  · intro k j hkj hj
    rw [hps, eigenRevLoop_d _ _ _ _ _ hru j hj,
      eigenRevLoop_d _ _ _ _ _ hru k (lt_trans hkj hj)]
    exact hmono (r - 1 - j) (r - 1 - k) (by omega) (by omega)

theorem pca_small_eigen_reverses_witness :
    eigenLoopIdx (2 + 1) (usub1 2) = some ((List.range 2).reverse) ∧
    (∀ k, k < 2 →
      (pca_small oracleC1 (fun _ _ => 0) 2 1 METHOD_EIGEN (fun _ _ => 0) (fun _ => 0)).2 k =
        oracleC1.eigVal (matMul 1 (fun _ _ => 0) (transposeM (fun _ _ => 0))) 2 (2 - 1 - k)) ∧
    (∀ k row, k < 2 →
      (pca_small oracleC1 (fun _ _ => 0) 2 1 METHOD_EIGEN (fun _ _ => 0) (fun _ => 0)).1 row k =
        oracleC1.eigVec (matMul 1 (fun _ _ => 0) (transposeM (fun _ _ => 0))) 2 row (2 - 1 - k)) ∧
    (∀ k j, k < j → j < 2 →
      (pca_small oracleC1 (fun _ _ => 0) 2 1 METHOD_EIGEN (fun _ _ => 0) (fun _ => 0)).2 j <
        (pca_small oracleC1 (fun _ _ => 0) 2 1 METHOD_EIGEN (fun _ _ => 0) (fun _ => 0)).2 k) :=
  pca_small_eigen_reverses oracleC1 (fun _ _ => 0) 2 1 (fun _ _ => 0) (fun _ => 0)
    (by norm_num) (by norm_num [u32])
    (by intro i j h1 h2; simp only [oracleC1]; exact_mod_cast h1)

/-- C10: `pca_small` invoked with a `method` that is neither `METHOD_SVD` nor
`METHOD_EIGEN` performs no action: the output parameters `U` and `d` are
returned exactly as they were on entry, and no error is raised. -/
theorem pca_small_unknown_method_frame {α : Type} [LinearOrderedField α]
    (O : SmallOracles α) (B : Mat α) (r c : ℕ) (method : ℤ)
    (U0 : Mat α) (d0 : Vec α)
    (h1 : method ≠ METHOD_SVD) (h2 : method ≠ METHOD_EIGEN) :
    pca_small O B r c method U0 d0 = (U0, d0) := by
  rw [pca_small, if_neg h1, if_neg h2]

theorem pca_small_unknown_method_frame_witness :
    pca_small (⟨fun _ _ _ => fun _ _ => 0, fun _ _ _ => fun _ => 0,
        fun _ _ => fun _ => 0, fun _ _ => fun _ _ => 0⟩ : SmallOracles ℚ)
      (fun _ _ => 0) 2 2 5 (fun _ _ => 0) (fun _ => 0) = (fun _ _ => 0, fun _ => 0) :=
  pca_small_unknown_method_frame _ _ 2 2 5 _ _ (by decide) (by decide)

/-- C2: for every iteration budget `maxiter`, tolerance `tol`, and loop body
`step` (in `RandomPCA::pca`, `step` multiplies the kernel matrix into the
iterate and re-orthonormalizes or re-normalizes it), the subspace-iteration
loop executes at most `maxiter` iterations; it exits via the `break`
(before the budget is exhausted) exactly when the convergence metric
`‖Y - Yn‖²_F / (N·k)` drops below `tol` at some iteration; when it never
does, exactly `maxiter` iterations execute; and after either form of
termination `Y` holds the last computed iterate (`step` applied as many
times as iterations were executed). -/
theorem subspace_iteration_loop_spec {α : Type} [LinearOrderedField α]
    (step : Mat α → Mat α) (N k maxiter : ℕ) (tol : α) (Y0 : Mat α) :
    (pcaLoop step N k tol maxiter Y0).2.1 ≤ maxiter ∧
    ((pcaLoop step N k tol maxiter Y0).2.2 = true ↔
      ∃ t, t < maxiter ∧ convDiff step N k (step^[t] Y0) < tol) ∧
    ((pcaLoop step N k tol maxiter Y0).2.2 = false →
      (pcaLoop step N k tol maxiter Y0).2.1 = maxiter) ∧
    (pcaLoop step N k tol maxiter Y0).1 = step^[(pcaLoop step N k tol maxiter Y0).2.1] Y0 := by
  induction maxiter generalizing Y0 with
  | zero =>
    refine ⟨le_refl 0, ?_, fun _ => rfl, rfl⟩
    simp [pcaLoop]
  | succ m ih =>
    have hunf : pcaLoop step N k tol (m + 1) Y0 =
        if convDiff step N k Y0 < tol then (step Y0, 1, true)
        else ((pcaLoop step N k tol m (step Y0)).1,
          (pcaLoop step N k tol m (step Y0)).2.1 + 1,
          (pcaLoop step N k tol m (step Y0)).2.2) := rfl
    by_cases hd : convDiff step N k Y0 < tol
    · rw [hunf, if_pos hd]
      refine ⟨?_, ?_, ?_, ?_⟩
      · show (1 : ℕ) ≤ m + 1
        omega
      · constructor
        · intro _
          exact ⟨0, by omega, by simpa using hd⟩
        · intro _
          rfl
      · intro h
        simp at h
      · show step Y0 = step^[1] Y0
        rw [Function.iterate_one]
    · rw [hunf, if_neg hd]
      obtain ⟨iha, ihb, ihc, ihd⟩ := ih (step Y0)
      refine ⟨?_, ?_, ?_, ?_⟩
      · show (pcaLoop step N k tol m (step Y0)).2.1 + 1 ≤ m + 1
        omega
      · show (pcaLoop step N k tol m (step Y0)).2.2 = true ↔ _
        rw [ihb]
        constructor
        · rintro ⟨t, ht, hdt⟩
          refine ⟨t + 1, by omega, ?_⟩
          rwa [Function.iterate_succ_apply]
        · rintro ⟨t, ht, hdt⟩
          cases t with
          | zero => exact absurd (by simpa using hdt) hd
          | succ s =>
            refine ⟨s, by omega, ?_⟩
            rwa [Function.iterate_succ_apply] at hdt
      · intro h
        show (pcaLoop step N k tol m (step Y0)).2.1 + 1 = m + 1
        rw [ihc h]
      · show (pcaLoop step N k tol m (step Y0)).1 =
          step^[(pcaLoop step N k tol m (step Y0)).2.1 + 1] Y0
        rw [Function.iterate_succ_apply]
        exact ihd

/-! Facts about `median_dist` and its sampling loop. -/

theorem flatMap_range_map_length {α : Type} (nn : ℕ) (f : ℕ → ℕ → α) :
    ((List.range nn).flatMap (fun j => (List.range nn).map (f j))).length = nn * nn := by
  rw [List.length_flatMap]
  have h : (List.length ∘ fun j => List.map (f j) (List.range nn)) = fun _ => nn := by
    funext j
    simp
  rw [h, List.map_const', List.sum_replicate, List.length_range, smul_eq_mul]

theorem medianOfD_eq_pairwise {α : Type} [LinearOrderedField α] (X2 : Mat α) (nn cols : ℕ) :
    medianOfD X2 nn cols = pairwiseSqDistMedian X2 nn cols := by
  have hfun : ∀ i j : ℕ,
      (∑ t ∈ Finset.range cols, X2 i t ^ 2) + (∑ t ∈ Finset.range cols, X2 j t ^ 2) -
        2 * ∑ t ∈ Finset.range cols, X2 i t * X2 j t =
      ∑ t ∈ Finset.range cols, (X2 i t - X2 j t) ^ 2 := by
    intro i j
    rw [← Finset.sum_add_distrib, Finset.mul_sum, ← Finset.sum_sub_distrib]
    refine Finset.sum_congr rfl ?_
    intro t _
    ring
  rw [medianOfD, pairwiseSqDistMedian]
  simp only [hfun]
  rw [flatMap_range_map_length nn (fun j i => ∑ t ∈ Finset.range cols, (X2 i t - X2 j t) ^ 2)]

theorem sampleLoop_accept_all {α : Type} [LinearOrderedField α]
    (prop : α) (draws : ℕ → α) (n : ℕ) :
    ∀ (l : List ℕ) (acc : List ℕ), (∀ i ∈ l, draws i < prop) → acc.length < n →
    sampleLoop prop draws n l acc = acc ++ l.take (n - acc.length) := by
  intro l
  induction l with
  | nil =>
    intro acc _ _
    simp [sampleLoop]
  | cons i rest ih =>
    intro acc hl hacc
    rw [sampleLoop, if_pos (hl i (by simp))]
    by_cases hn : (acc ++ [i]).length = n
    · rw [if_pos hn]
      have h1 : n - acc.length = 1 := by
        simp only [List.length_append, List.length_cons, List.length_nil] at hn
        omega
      rw [h1]
      simp
    · rw [if_neg hn]
      have hlt : (acc ++ [i]).length < n := by
        simp only [List.length_append, List.length_cons, List.length_nil] at hn ⊢
        omega
      rw [ih (acc ++ [i]) (fun x hx => hl x (by simp [hx])) hlt]
      have h2 : n - (acc ++ [i]).length = n - acc.length - 1 := by
        simp only [List.length_append, List.length_cons, List.length_nil]
        omega
      have h3 : n - acc.length = (n - acc.length - 1) + 1 := by omega
      rw [h2, h3, List.take_succ_cons, List.append_assoc]
      rfl

/-- C7 (the code contradicts the claimed behavior): on the source as
written, `prop = (double)X.rows() / n` exceeds `1` whenever `n < rows`, and
every uniform draw lies in `[0, 1)`, so the acceptance test `dist(rng) < prop`
succeeds for every scanned row: the loop always accepts exactly the first
`n` rows of `X`, for every seed, and a shortfall can never occur. -/
theorem median_sampling_accepts_first_n {α : Type} [LinearOrderedField α]
    (rows n : ℕ) (draws : ℕ → α)
    (h1 : 1 ≤ n) (h2 : n < rows) (hd : ∀ i, 0 ≤ draws i ∧ draws i < 1) :
    sampleLoop ((rows : α) / (n : α)) draws n (List.range rows) [] = List.range n ∧
    (sampleLoop ((rows : α) / (n : α)) draws n (List.range rows) []).length = n := by
  have hn0 : (0 : α) < (n : α) := by exact_mod_cast h1
  have hprop : (1 : α) < (rows : α) / (n : α) := by
    rw [lt_div_iff₀ hn0, one_mul]
    exact_mod_cast h2
  have hall : ∀ i ∈ List.range rows, draws i < (rows : α) / (n : α) :=
    fun i _ => lt_trans (hd i).2 hprop
  have heq : sampleLoop ((rows : α) / (n : α)) draws n (List.range rows) [] = List.range n := by
    rw [sampleLoop_accept_all ((rows : α) / (n : α)) draws n (List.range rows) [] hall
      (by simpa using h1)]
    rw [List.nil_append, List.length_nil, Nat.sub_zero, List.take_range]
    congr 1
    omega
  exact ⟨heq, by rw [heq, List.length_range]⟩

theorem median_sampling_accepts_first_n_witness :
    sampleLoop (((2 : ℕ) : ℚ) / ((1 : ℕ) : ℚ)) (fun _ => 1 / 2) 1 (List.range 2) [] =
      List.range 1 ∧
    (sampleLoop (((2 : ℕ) : ℚ) / ((1 : ℕ) : ℚ)) (fun _ => 1 / 2) 1
      (List.range 2) []).length = 1 :=
  median_sampling_accepts_first_n 2 1 (fun _ => 1 / 2) (by norm_num) (by norm_num)
    (fun i => ⟨by norm_num, by norm_num⟩)

/-- Unfolding of one `normalize` entry in a live column. -/
theorem normalize_apply_lt {α : Type} [LinearOrderedField α] (sq : α → α) (r c : ℕ)
    (X : Mat α) (i j : ℕ) (hj : j < c) :
    normalize sq r c X i j = X i j * (1 / sq (colNormSq r X j)) := by
  simp only [normalize]
  rw [if_pos hj]

/-- C9: the Column Normalizer is idempotent on matrices with no zero-norm
column: after the first application every column has unit squared norm, and
dividing by `sqrt 1 = 1` is the identity. -/
theorem normalize_idempotent (r c : ℕ) (X : Mat ℝ)
    (h : ∀ j, j < c → colNormSq r X j ≠ 0) :
    normalize Real.sqrt r c (normalize Real.sqrt r c X) = normalize Real.sqrt r c X := by
  funext i j
  by_cases hj : j < c
  · have ht := h j hj
    have htpos : (0 : ℝ) ≤ colNormSq r X j :=
      Finset.sum_nonneg (fun k _ => sq_nonneg _)
    have hcol : colNormSq r (normalize Real.sqrt r c X) j = 1 := by
      have hstep : colNormSq r (normalize Real.sqrt r c X) j =
          colNormSq r X j * (1 / Real.sqrt (colNormSq r X j)) ^ 2 := by
        rw [colNormSq, colNormSq, Finset.sum_mul]
        refine Finset.sum_congr rfl ?_
        intro k _
        rw [normalize_apply_lt _ _ _ _ _ _ hj, mul_pow, colNormSq]
      rw [hstep, div_pow, one_pow, Real.sq_sqrt htpos, one_div, mul_inv_cancel₀ ht]
    rw [normalize_apply_lt _ _ _ _ _ _ hj, normalize_apply_lt _ _ _ _ _ _ hj, hcol,
      Real.sqrt_one]
    norm_num
  · simp only [normalize, if_neg hj]

theorem normalize_idempotent_witness :
    normalize Real.sqrt 1 1 (normalize Real.sqrt 1 1 (fun _ _ => 1)) =
      normalize Real.sqrt 1 1 (fun _ _ => 1) :=
  normalize_idempotent 1 1 (fun _ _ => 1) (by
    intro j hj
    rw [colNormSq]
    simp)

/-- C3: `median_dist` computes the median of all pairwise squared Euclidean
distances among the sampled rows — the exact middle element of the sorted
values for an odd count, the average of the two middle elements for an even
count — and when the configured bandwidth is zero, the pipeline sets `sigma`
to the square root of that median. -/
theorem median_dist_pairwise_and_sigma {σ : Type} (E : PcaExt σ ℝ) (A : PcaArgs ℝ) (tr : Bool)
    (hsqrt : E.sqrtFn = Real.sqrt) (hsigma : A.sigma = 0) :
    (∀ (X2 : Mat ℝ) (nn c : ℕ), medianOfD X2 nn c = pairwiseSqDistMedian X2 nn c) ∧
    median_dist (effX E A tr) A.rows A.cols (min A.rbf_sample (effN A tr)) E.undef
        (E.unif A.seed) =
      pairwiseSqDistMedian
        (med_X2 (effX E A tr) A.rows (min A.rbf_sample (effN A tr)) E.undef (E.unif A.seed))
        (med_n A.rows (min A.rbf_sample (effN A tr))) A.cols ∧
    effSigma E A tr =
      Real.sqrt (median_dist (effX E A tr) A.rows A.cols (min A.rbf_sample (effN A tr))
        E.undef (E.unif A.seed)) := by
  refine ⟨fun X2 nn c => medianOfD_eq_pairwise X2 nn c, ?_, ?_⟩
  · rw [median_dist]
    exact medianOfD_eq_pairwise _ _ _
  · rw [effSigma, if_pos hsigma, hsqrt]

theorem median_dist_pairwise_and_sigma_witness :
    (∀ (X2 : Mat ℝ) (nn c : ℕ), medianOfD X2 nn c = pairwiseSqDistMedian X2 nn c) ∧
    median_dist (effX extC3 argsC3 false) argsC3.rows argsC3.cols
        (min argsC3.rbf_sample (effN argsC3 false)) extC3.undef (extC3.unif argsC3.seed) =
      pairwiseSqDistMedian
        (med_X2 (effX extC3 argsC3 false) argsC3.rows
          (min argsC3.rbf_sample (effN argsC3 false)) extC3.undef (extC3.unif argsC3.seed))
        (med_n argsC3.rows (min argsC3.rbf_sample (effN argsC3 false))) argsC3.cols ∧
    effSigma extC3 argsC3 false =
      Real.sqrt (median_dist (effX extC3 argsC3 false) argsC3.rows argsC3.cols
        (min argsC3.rbf_sample (effN argsC3 false)) extC3.undef (extC3.unif argsC3.seed)) :=
  median_dist_pairwise_and_sigma extC3 argsC3 false rfl rfl

/-- C5: when the configured kernel is not the linear kernel, `RandomPCA::pca`
forces the `transpose` flag to `false`, so the whole pipeline — effective
input matrix, `N` selection, iteration and result assembly — behaves exactly
as a non-transposed invocation, whatever `transpose` value the caller
passed. -/
theorem nonlinear_kernel_forces_no_transpose {α : Type} [LinearOrderedField α] {σ : Type}
    (E : PcaExt σ α) (A : PcaArgs α) (b : Bool) (h : A.kernel ≠ KERNEL_LINEAR) :
    RandomPCA.pca E A b = RandomPCA.pca E A false := by
  rw [RandomPCA.pca, RandomPCA.pca, effTranspose, effTranspose, if_neg h, if_neg h]

theorem nonlinear_kernel_forces_no_transpose_witness :
    RandomPCA.pca extC5 argsC5 true = RandomPCA.pca extC5 argsC5 false :=
  nonlinear_kernel_forces_no_transpose extC5 argsC5 true (by decide)

/-- C6: at the end of every `RandomPCA::pca` invocation, all result outputs
are truncated to the requested `ndim` components: `P`, `U` and `V` keep only
their first `ndim` columns and `d` its first `ndim` entries, dropping all
`nextra` oversampling columns (read back as `0` in the functional model of
`conservativeResize`). -/
theorem results_truncated_to_ndim {α : Type} [LinearOrderedField α] {σ : Type}
    (E : PcaExt σ α) (A : PcaArgs α) (t : Bool) :
    (RandomPCA.pca E A t).U = truncCols A.ndim (fullU E A (effTranspose A.kernel t)) ∧
    (RandomPCA.pca E A t).P = truncCols A.ndim (fullP E A (effTranspose A.kernel t)) ∧
    (RandomPCA.pca E A t).V = truncCols A.ndim (fullV E A (effTranspose A.kernel t)) ∧
    (RandomPCA.pca E A t).d = truncVec A.ndim (dScaled E A (effTranspose A.kernel t)) ∧
    (∀ i j, (RandomPCA.pca E A t).U i (A.ndim + j) = 0) ∧
    (∀ i j, (RandomPCA.pca E A t).P i (A.ndim + j) = 0) ∧
    (∀ i j, (RandomPCA.pca E A t).V i (A.ndim + j) = 0) ∧
    (∀ i, (RandomPCA.pca E A t).d (A.ndim + i) = 0) := by
  refine ⟨rfl, rfl, rfl, rfl, ?_, ?_, ?_, ?_⟩
  · intro i j
    show (if A.ndim + j < A.ndim then fullU E A (effTranspose A.kernel t) i (A.ndim + j)
      else 0) = 0
    exact if_neg (by omega)
  · intro i j
    show (if A.ndim + j < A.ndim then fullP E A (effTranspose A.kernel t) i (A.ndim + j)
      else 0) = 0
    exact if_neg (by omega)
  · intro i j
    show (if A.ndim + j < A.ndim then fullV E A (effTranspose A.kernel t) i (A.ndim + j)
      else 0) = 0
    exact if_neg (by omega)
  · intro i
    show (if A.ndim + i < A.ndim then dScaled E A (effTranspose A.kernel t) (A.ndim + i)
      else 0) = 0
    exact if_neg (by omega)

/-! Facts about the sketch generator's RNG consumption. -/

theorem fillRowFrom_state {α σ : Type} [LinearOrderedField α] (next : σ → α × σ) (i : ℕ) :
    ∀ (t j : ℕ) (s : σ) (G : Mat α),
    (fillRowFrom next i t j s G).2 = (rngShift next)^[t] s := by
  intro t
  induction t with
  | zero =>
    intro j s G
    rfl
  | succ m ih =>
    intro j s G
    show (fillRowFrom next i m (j + 1) (next s).2
      (fun a b => if a = i ∧ b = j then (next s).1 else G a b)).2 = _
    rw [ih, Function.iterate_succ_apply]
    rfl

theorem fillRowFrom_entry {α σ : Type} [LinearOrderedField α] (next : σ → α × σ) (i : ℕ) :
    ∀ (t j0 : ℕ) (s : σ) (G : Mat α) (a b : ℕ),
    (fillRowFrom next i t j0 s G).1 a b =
      if a = i ∧ j0 ≤ b ∧ b < j0 + t then nthDraw next s (b - j0) else G a b := by
  intro t
  induction t with
  | zero =>
    intro j0 s G a b
    show G a b = _
    rw [if_neg (by omega)]
  | succ m ih =>
    intro j0 s G a b
    show (fillRowFrom next i m (j0 + 1) (next s).2
      (fun x y => if x = i ∧ y = j0 then (next s).1 else G x y)).1 a b = _
    rw [ih]
    by_cases h1 : a = i ∧ j0 + 1 ≤ b ∧ b < j0 + 1 + m
    · rw [if_pos h1, if_pos (by omega : a = i ∧ j0 ≤ b ∧ b < j0 + (m + 1))]
      simp only [nthDraw]
      have hb : b - j0 = (b - (j0 + 1)) + 1 := by omega
      rw [hb, Function.iterate_succ_apply]
      rfl
    · rw [if_neg h1]
      by_cases h2 : a = i ∧ b = j0
      · rw [if_pos h2, if_pos (by omega : a = i ∧ j0 ≤ b ∧ b < j0 + (m + 1))]
        have hb : b - j0 = 0 := by omega
        rw [hb, nthDraw, Function.iterate_zero_apply]
      · rw [if_neg h2, if_neg (by omega : ¬(a = i ∧ j0 ≤ b ∧ b < j0 + (m + 1)))]

theorem fillRowsFrom_entry {α σ : Type} [LinearOrderedField α] (next : σ → α × σ) (cols : ℕ) :
    ∀ (t i0 : ℕ) (s : σ) (G : Mat α) (a b : ℕ),
    (fillRowsFrom next cols t i0 s G).1 a b =
      if i0 ≤ a ∧ a < i0 + t ∧ b < cols then nthDraw next s ((a - i0) * cols + b)
      else G a b := by
  intro t
  induction t with
  | zero =>
    intro i0 s G a b
    show G a b = _
    rw [if_neg (by omega)]
  | succ m ih =>
    intro i0 s G a b
    show (fillRowsFrom next cols m (i0 + 1) (fillRowFrom next i0 cols 0 s G).2
      (fillRowFrom next i0 cols 0 s G).1).1 a b = _
    rw [ih, fillRowFrom_state]
    by_cases h1 : i0 + 1 ≤ a ∧ a < i0 + 1 + m ∧ b < cols
    · rw [if_pos h1, if_pos (by omega : i0 ≤ a ∧ a < i0 + (m + 1) ∧ b < cols)]
      simp only [nthDraw]
      rw [← Function.iterate_add_apply]
      have hidx : (a - (i0 + 1)) * cols + b + cols = (a - i0) * cols + b := by
        obtain ⟨q, hq⟩ : ∃ q, a - i0 = q + 1 := ⟨a - i0 - 1, by omega⟩
        have hq2 : a - (i0 + 1) = q := by omega
        rw [hq, hq2]
        ring
      rw [hidx]
    · rw [if_neg h1, fillRowFrom_entry]
      by_cases h2 : a = i0 ∧ 0 ≤ b ∧ b < 0 + cols
      · rw [if_pos h2, if_pos (by omega : i0 ≤ a ∧ a < i0 + (m + 1) ∧ b < cols)]
        have ha : a - i0 = 0 := by omega
        have hb : b - 0 = b := rfl
        rw [ha, hb]
        norm_num
      · rw [if_neg h2, if_neg (by omega : ¬(i0 ≤ a ∧ a < i0 + (m + 1) ∧ b < cols))]

/-- C8: `make_gaussian` is deterministic in its arguments — as a pure
function of `(rows, cols, seed)` and the generator model, two calls with
identical arguments return the identical matrix — because the generator is
freshly seeded exactly once per call and consumed in a fixed row-major
element order: entry `(i, j)` is exactly the `(i*cols + j)`-th variate drawn
from the seeded state. -/
theorem make_gaussian_deterministic_row_major {α σ : Type} [LinearOrderedField α]
    (seedInit : ℤ → σ) (next : σ → α × σ) (rows cols : ℕ) (seed : ℤ) :
    make_gaussian seedInit next rows cols seed = make_gaussian seedInit next rows cols seed ∧
    (∀ i j, i < rows → j < cols →
      make_gaussian seedInit next rows cols seed i j =
        nthDraw next (seedInit seed) (i * cols + j)) := by
  refine ⟨rfl, ?_⟩
  intro i j hi hj
  rw [make_gaussian, fillRowsFrom_entry]
  rw [if_pos (by omega : 0 ≤ i ∧ i < 0 + rows ∧ j < cols)]
  rw [Nat.sub_zero]

/-! Facts feeding C4: a matrix with orthonormal columns contracts squared
column norms, hence `‖Qᵀ·X‖²_F ≤ ‖X‖²_F`. -/

theorem orthonormal_cols_contract {α : Type} [LinearOrderedField α]
    (rows td : ℕ) (Q : Mat α)
    (hQ : ∀ a b, a < td → b < td →
      (∑ i ∈ Finset.range rows, Q i a * Q i b) = if a = b then 1 else 0)
    (x : ℕ → α) :
    ∑ a ∈ Finset.range td, (∑ i ∈ Finset.range rows, Q i a * x i) ^ 2 ≤
      ∑ i ∈ Finset.range rows, x i ^ 2 := by
  obtain ⟨y, hy⟩ : ∃ y : ℕ → α, ∀ a, y a = ∑ i ∈ Finset.range rows, Q i a * x i :=
    ⟨_, fun a => rfl⟩
  obtain ⟨z, hz⟩ : ∃ z : ℕ → α, ∀ i, z i = ∑ a ∈ Finset.range td, Q i a * y a :=
    ⟨_, fun i => rfl⟩
  have hgoal : ∑ a ∈ Finset.range td, (∑ i ∈ Finset.range rows, Q i a * x i) ^ 2 =
      ∑ a ∈ Finset.range td, y a ^ 2 := by
    refine Finset.sum_congr rfl ?_
    intro a _
    rw [hy a]
  rw [hgoal]
  have key1 : ∑ i ∈ Finset.range rows, x i * z i = ∑ a ∈ Finset.range td, y a ^ 2 := by
    have h1 : ∀ i ∈ Finset.range rows, x i * z i =
        ∑ a ∈ Finset.range td, x i * (Q i a * y a) := by
      intro i _
      rw [hz i, Finset.mul_sum]
    rw [Finset.sum_congr rfl h1, Finset.sum_comm]
    refine Finset.sum_congr rfl ?_
    intro a _
    have h2 : ∑ i ∈ Finset.range rows, x i * (Q i a * y a) =
        (∑ i ∈ Finset.range rows, Q i a * x i) * y a := by
      rw [Finset.sum_mul]
      refine Finset.sum_congr rfl ?_
      intro i _
      ring
    rw [h2, ← hy a, sq]
  have key2 : ∑ i ∈ Finset.range rows, z i ^ 2 = ∑ a ∈ Finset.range td, y a ^ 2 := by
    have h1 : ∀ i ∈ Finset.range rows, z i ^ 2 =
        ∑ a ∈ Finset.range td, ∑ b ∈ Finset.range td, (Q i a * y a) * (Q i b * y b) := by
      intro i _
      rw [sq, hz i, Finset.sum_mul_sum]
    rw [Finset.sum_congr rfl h1, Finset.sum_comm]
    have h3 : ∀ a ∈ Finset.range td,
        (∑ i ∈ Finset.range rows, ∑ b ∈ Finset.range td, (Q i a * y a) * (Q i b * y b)) =
        ∑ b ∈ Finset.range td, (if a = b then 1 else 0) * (y a * y b) := by
      intro a ha
      rw [Finset.sum_comm]
      refine Finset.sum_congr rfl ?_
      intro b hb
      have h4 : ∀ i ∈ Finset.range rows, (Q i a * y a) * (Q i b * y b) =
          (Q i a * Q i b) * (y a * y b) := by
        intro i _
        ring
      rw [Finset.sum_congr rfl h4, ← Finset.sum_mul,
        hQ a b (Finset.mem_range.mp ha) (Finset.mem_range.mp hb)]
    rw [Finset.sum_congr rfl h3]
    refine Finset.sum_congr rfl ?_
    intro a ha
    have h5 : ∀ b ∈ Finset.range td, (if a = b then (1 : α) else 0) * (y a * y b) =
        if a = b then y a * y b else 0 := by
      intro b _
      by_cases hab : a = b
      · rw [if_pos hab, if_pos hab, one_mul]
      · rw [if_neg hab, if_neg hab, zero_mul]
    rw [Finset.sum_congr rfl h5, Finset.sum_ite_eq, if_pos ha, sq]
  have hpos : (0 : α) ≤ ∑ i ∈ Finset.range rows, (x i - z i) ^ 2 :=
    Finset.sum_nonneg (fun i _ => sq_nonneg _)
  have hexp : ∑ i ∈ Finset.range rows, (x i - z i) ^ 2 =
      ∑ i ∈ Finset.range rows, x i ^ 2 - 2 * ∑ i ∈ Finset.range rows, x i * z i +
        ∑ i ∈ Finset.range rows, z i ^ 2 := by
    rw [Finset.mul_sum, ← Finset.sum_sub_distrib, ← Finset.sum_add_distrib]
    refine Finset.sum_congr rfl ?_
    intro i _
    ring
  rw [hexp, key1, key2] at hpos
  linarith [hpos]

theorem smallB_frob_le {α : Type} [LinearOrderedField α] {σ : Type}
    (E : PcaExt σ α) (A : PcaArgs α) (tr : Bool)
    (hQ : ∀ a b, a < totdim A → b < totdim A →
      (∑ i ∈ Finset.range A.rows, bigQ E A tr i a * bigQ E A tr i b) =
        if a = b then 1 else 0) :
    frobSq (totdim A) A.cols (smallB E A tr) ≤ frobSq A.rows A.cols (effX E A tr) := by
  rw [frobSq, frobSq, Finset.sum_comm,
    show (∑ i ∈ Finset.range A.rows, ∑ j ∈ Finset.range A.cols, effX E A tr i j ^ 2) =
      ∑ j ∈ Finset.range A.cols, ∑ i ∈ Finset.range A.rows, effX E A tr i j ^ 2 from
      Finset.sum_comm]
  refine Finset.sum_le_sum ?_
  intro j _
  have hB : ∀ a ∈ Finset.range (totdim A), smallB E A tr a j ^ 2 =
      (∑ i ∈ Finset.range A.rows, bigQ E A tr i a * effX E A tr i j) ^ 2 := by
    intro a _
    rw [smallB, matMul]
    rfl
  rw [Finset.sum_congr rfl hB]
  exact orthonormal_cols_contract A.rows (totdim A) (bigQ E A tr) hQ
    (fun i => effX E A tr i j)

/-- C4 amended: for the linear kernel (either orientation, either
decomposition method), the assembled proportion-of-variance-explained vector
satisfies `0 ≤ pve[i] ≤ 1` for all `i` and `∑ pve ≤ 1`, provided the
external decompositions behave as genuine ones do: the QR stage returns a
basis with orthonormal columns, and the small decomposition returns
nonnegative values whose total does not exceed `‖B‖²_F`; the data is
nonzero and `2 ≤ N < 2^32`.  (The original claim's RBF case is refuted by
the counterexample.) -/
theorem pve_bounds_linear_kernel {α : Type} [LinearOrderedField α] {σ : Type}
    (E : PcaExt σ α) (A : PcaArgs α) (t : Bool)
    (hk : A.kernel = KERNEL_LINEAR)
    (hN2 : 2 ≤ effN A (effTranspose A.kernel t))
    (hNu : effN A (effTranspose A.kernel t) < u32)
    (hX : 0 < frobSq A.rows A.cols (effX E A (effTranspose A.kernel t)))
    (hQ : ∀ a b, a < totdim A → b < totdim A →
      (∑ i ∈ Finset.range A.rows,
        bigQ E A (effTranspose A.kernel t) i a * bigQ E A (effTranspose A.kernel t) i b) =
        if a = b then 1 else 0)
    (hd0 : ∀ i, i < totdim A → 0 ≤ (smallOut E A (effTranspose A.kernel t)).2 i)
    (hdsum : (∑ i ∈ Finset.range (totdim A), (smallOut E A (effTranspose A.kernel t)).2 i) ≤
      frobSq (totdim A) A.cols (smallB E A (effTranspose A.kernel t))) :
    (∀ j, 0 ≤ (RandomPCA.pca E A t).pve j ∧ (RandomPCA.pca E A t).pve j ≤ 1) ∧
    (∑ j ∈ Finset.range A.ndim, (RandomPCA.pca E A t).pve j) ≤ 1 := by
  obtain ⟨tr, htr⟩ : ∃ tr, effTranspose A.kernel t = tr := ⟨_, rfl⟩
  rw [htr] at hN2 hNu hX hQ hd0 hdsum
  have hpca : RandomPCA.pca E A t = pcaCore E A tr := by rw [RandomPCA.pca, htr]
  rw [hpca]
  have hc : nm1 A tr = ((effN A tr - 1 : ℕ) : α) := by
    rw [nm1, usub1_of_pos _ (by omega) hNu]
  have hcpos : (0 : α) < nm1 A tr := by
    rw [hc]
    exact_mod_cast (by omega : 0 < effN A tr - 1)
  have hcne : nm1 A tr ≠ 0 := ne_of_gt hcpos
  have hFne : frobSq A.rows A.cols (effX E A tr) ≠ 0 := ne_of_gt hX
  have htrace : traceK E A tr = frobSq A.rows A.cols (effX E A tr) / nm1 A tr := by
    rw [traceK, frobSq, Finset.sum_div]
    refine Finset.sum_congr rfl ?_
    intro i _
    rw [kernelK, if_neg (by rw [hk]; decide)]
    rw [matMul]
    congr 1
    refine Finset.sum_congr rfl ?_
    intro k _
    rw [sq]
    rfl
  have hle : (∑ i ∈ Finset.range (totdim A), (smallOut E A tr).2 i) ≤
      frobSq A.rows A.cols (effX E A tr) :=
    le_trans hdsum (smallB_frob_le E A tr hQ)
  have hperj : ∀ j, j < A.ndim → (pcaCore E A tr).pve j =
      (smallOut E A tr).2 j / frobSq A.rows A.cols (effX E A tr) := by
    intro j hj
    have h1 : (pcaCore E A tr).pve j =
        (smallOut E A tr).2 j / nm1 A tr / traceK E A tr := by
      show (if j < A.ndim then dScaled E A tr j else 0) / traceK E A tr = _
      rw [if_pos hj]
      rfl
    rw [h1, htrace, div_div_div_comm, div_self hcne, div_one]
  have hjt : ∀ j, j < A.ndim → j < totdim A := by
    intro j hj
    rw [totdim]
    omega
  have hbound : ∀ j, 0 ≤ (pcaCore E A tr).pve j ∧ (pcaCore E A tr).pve j ≤ 1 := by
    intro j
    by_cases hj : j < A.ndim
    · rw [hperj j hj]
      constructor
      · exact div_nonneg (hd0 j (hjt j hj)) (le_of_lt hX)
      · rw [div_le_one hX]
        calc (smallOut E A tr).2 j
            ≤ ∑ i ∈ Finset.range (totdim A), (smallOut E A tr).2 i :=
              Finset.single_le_sum (fun i hi => hd0 i (Finset.mem_range.mp hi))
                (Finset.mem_range.mpr (hjt j hj))
          _ ≤ _ := hle
    · have h0 : (pcaCore E A tr).pve j = 0 := by
        show (if j < A.ndim then dScaled E A tr j else 0) / traceK E A tr = 0
        rw [if_neg hj, zero_div]
      rw [h0]
      norm_num
  have hsum : (∑ j ∈ Finset.range A.ndim, (pcaCore E A tr).pve j) ≤ 1 := by
    have h1 : ∀ j ∈ Finset.range A.ndim, (pcaCore E A tr).pve j =
        (smallOut E A tr).2 j / frobSq A.rows A.cols (effX E A tr) :=
      fun j hj => hperj j (Finset.mem_range.mp hj)
    rw [Finset.sum_congr rfl h1, ← Finset.sum_div, div_le_one hX]
    calc ∑ j ∈ Finset.range A.ndim, (smallOut E A tr).2 j
        ≤ ∑ j ∈ Finset.range (totdim A), (smallOut E A tr).2 j := by
          refine Finset.sum_le_sum_of_subset_of_nonneg ?_ ?_
          · refine Finset.range_subset.mpr ?_
            rw [totdim]
            omega
          · intro i hi _
            exact hd0 i (Finset.mem_range.mp hi)
      _ ≤ _ := hle
  exact ⟨hbound, hsum⟩

/-! Evaluation of the pipeline on the C4 counterexample input. -/

theorem argsC4x_bigQ : bigQ extC4x argsC4x false =
    fun i j => if i = 0 ∧ j = 0 then (1 : ℝ) else 0 := rfl

theorem argsC4x_effX : effX extC4x argsC4x false = argsC4x.X := rfl

theorem argsC4x_smallB : smallB extC4x argsC4x false 0 0 = 100 := by
  rw [smallB, matMul, show Finset.range argsC4x.rows = Finset.range 2 from rfl,
    Finset.sum_range_succ, Finset.sum_range_succ, Finset.sum_range_zero,
    argsC4x_bigQ, argsC4x_effX]
  norm_num [transposeM, argsC4x]

theorem argsC4x_smallOut : (smallOut extC4x argsC4x false).2 0 = 10000 := by
  have h1 : smallOut extC4x argsC4x false =
      eigenRevLoop
        ((smallOracles extC4x).eigVal (matMul argsC4x.cols (smallB extC4x argsC4x false)
          (transposeM (smallB extC4x argsC4x false))) (totdim argsC4x))
        ((smallOracles extC4x).eigVec (matMul argsC4x.cols (smallB extC4x argsC4x false)
          (transposeM (smallB extC4x argsC4x false))) (totdim argsC4x))
        (totdim argsC4x) (fun _ _ => 0) argsC4x.d0 := by
    rw [smallOut, pca_small, if_neg (by decide),
      if_pos (show argsC4x.method = METHOD_EIGEN from rfl)]
  rw [h1, eigenRevLoop_d _ _ (totdim argsC4x) _ _ (by norm_num [totdim, argsC4x, u32]) 0
    (by norm_num [totdim, argsC4x])]
  show matMul argsC4x.cols (smallB extC4x argsC4x false)
    (transposeM (smallB extC4x argsC4x false)) 0 0 = 10000
  rw [matMul, show Finset.range argsC4x.cols = Finset.range 1 from rfl,
    Finset.sum_range_succ, Finset.sum_range_zero]
  show 0 + smallB extC4x argsC4x false 0 0 * smallB extC4x argsC4x false 0 0 = 10000
  rw [argsC4x_smallB]
  norm_num

/-- C4 counterexample: on a concrete RBF-kernel invocation (data `(100, 0)ᵀ`,
`sigma = 3`, no centering, genuine QR and eigensolver outputs for the values
reached), the assembled `pve[0]` equals `5000`, violating both
`pve[i] ≤ 1` and `sum(pve) ≤ 1 + ε`: the eigenvalues of `B·Bᵀ` grow with the
squared data scale while the RBF kernel's trace stays `N`, so the claimed
bound fails for the RBF kernel. -/
theorem pve_bound_exceeds_one_for_rbf :
    (RandomPCA.pca extC4x argsC4x false).pve 0 = 5000 ∧
    ¬ ((RandomPCA.pca extC4x argsC4x false).pve 0 ≤ 1) := by
  have hpve : (RandomPCA.pca extC4x argsC4x false).pve 0 =
      dScaled extC4x argsC4x false 0 / traceK extC4x argsC4x false := rfl
  have hdsc : dScaled extC4x argsC4x false 0 = 10000 := by
    rw [dScaled, argsC4x_smallOut, nm1, (by decide : usub1 (effN argsC4x false) = 1),
      Nat.cast_one, div_one]
  have hKd : ∀ i, kernelK extC4x argsC4x false i i = 1 := by
    intro i
    rw [kernelK, if_pos (show argsC4x.kernel = KERNEL_RBF from rfl)]
    show Real.exp (((∑ t ∈ Finset.range argsC4x.cols, effX extC4x argsC4x false i t ^ 2) +
      (∑ t ∈ Finset.range argsC4x.cols, effX extC4x argsC4x false i t ^ 2) -
      2 * ∑ t ∈ Finset.range argsC4x.cols,
        effX extC4x argsC4x false i t * effX extC4x argsC4x false i t) /
      (-1 * effSigma extC4x argsC4x false * effSigma extC4x argsC4x false)) = 1
    have ha : (∑ t ∈ Finset.range argsC4x.cols,
        effX extC4x argsC4x false i t * effX extC4x argsC4x false i t) =
        ∑ t ∈ Finset.range argsC4x.cols, effX extC4x argsC4x false i t ^ 2 := by
      refine Finset.sum_congr rfl ?_
      intro t _
      rw [sq]
    rw [ha,
      show (∑ t ∈ Finset.range argsC4x.cols, effX extC4x argsC4x false i t ^ 2) +
        (∑ t ∈ Finset.range argsC4x.cols, effX extC4x argsC4x false i t ^ 2) -
        2 * ∑ t ∈ Finset.range argsC4x.cols, effX extC4x argsC4x false i t ^ 2 = 0 from
        by ring,
      zero_div, Real.exp_zero]
  have htr2 : traceK extC4x argsC4x false = 2 := by
    rw [traceK, show Finset.range argsC4x.rows = Finset.range 2 from rfl,
      Finset.sum_range_succ, Finset.sum_range_succ, Finset.sum_range_zero, hKd 0, hKd 1]
    norm_num
  have h5 : (RandomPCA.pca extC4x argsC4x false).pve 0 = 5000 := by
    rw [hpve, hdsc, htr2]
    norm_num
  refine ⟨h5, ?_⟩
  rw [h5]
  norm_num

/-! Evaluation of the pipeline on the C4 witness input (linear kernel). -/

theorem argsC4_efftr : effTranspose argsC4.kernel false = false := rfl

theorem argsC4_bigQ : bigQ extC4 argsC4 (effTranspose argsC4.kernel false) =
    fun i j => if i = 0 ∧ j = 0 then (1 : ℚ) else 0 := rfl

theorem argsC4_effX : effX extC4 argsC4 (effTranspose argsC4.kernel false) = argsC4.X := rfl

theorem argsC4_smallB : smallB extC4 argsC4 (effTranspose argsC4.kernel false) 0 0 = 1 := by
  rw [smallB, matMul, show Finset.range argsC4.rows = Finset.range 2 from rfl,
    Finset.sum_range_succ, Finset.sum_range_succ, Finset.sum_range_zero,
    argsC4_bigQ, argsC4_effX]
  norm_num [transposeM, argsC4]

theorem argsC4_smallOut : (smallOut extC4 argsC4 (effTranspose argsC4.kernel false)).2 0 = 1 := by
  have h1 : smallOut extC4 argsC4 (effTranspose argsC4.kernel false) =
      eigenRevLoop
        ((smallOracles extC4).eigVal (matMul argsC4.cols
          (smallB extC4 argsC4 (effTranspose argsC4.kernel false))
          (transposeM (smallB extC4 argsC4 (effTranspose argsC4.kernel false))))
          (totdim argsC4))
        ((smallOracles extC4).eigVec (matMul argsC4.cols
          (smallB extC4 argsC4 (effTranspose argsC4.kernel false))
          (transposeM (smallB extC4 argsC4 (effTranspose argsC4.kernel false))))
          (totdim argsC4))
        (totdim argsC4) (fun _ _ => 0) argsC4.d0 := by
    rw [smallOut, pca_small, if_neg (by decide),
      if_pos (show argsC4.method = METHOD_EIGEN from rfl)]
  rw [h1, eigenRevLoop_d _ _ (totdim argsC4) _ _ (by norm_num [totdim, argsC4, u32]) 0
    (by norm_num [totdim, argsC4])]
  show matMul argsC4.cols (smallB extC4 argsC4 (effTranspose argsC4.kernel false))
    (transposeM (smallB extC4 argsC4 (effTranspose argsC4.kernel false))) 0 0 = 1
  rw [matMul, show Finset.range argsC4.cols = Finset.range 1 from rfl,
    Finset.sum_range_succ, Finset.sum_range_zero]
  show 0 + smallB extC4 argsC4 (effTranspose argsC4.kernel false) 0 0 *
    smallB extC4 argsC4 (effTranspose argsC4.kernel false) 0 0 = 1
  rw [argsC4_smallB]
  norm_num

theorem pve_bounds_linear_kernel_witness :
    (∀ j, 0 ≤ (RandomPCA.pca extC4 argsC4 false).pve j ∧
      (RandomPCA.pca extC4 argsC4 false).pve j ≤ 1) ∧
    (∑ j ∈ Finset.range argsC4.ndim, (RandomPCA.pca extC4 argsC4 false).pve j) ≤ 1 :=
  pve_bounds_linear_kernel extC4 argsC4 false rfl
    (by rw [argsC4_efftr]; norm_num [effN, argsC4])
    (by rw [argsC4_efftr]; norm_num [effN, argsC4, u32])
    (by
      rw [argsC4_effX, frobSq, show Finset.range argsC4.rows = Finset.range 2 from rfl,
        show Finset.range argsC4.cols = Finset.range 1 from rfl]
      rw [Finset.sum_range_succ, Finset.sum_range_succ, Finset.sum_range_zero]
      rw [Finset.sum_range_succ, Finset.sum_range_zero, Finset.sum_range_succ,
        Finset.sum_range_zero]
      norm_num [argsC4])
    (by
      intro a b ha hb
      have ha1 : a < 1 := ha
      have hb1 : b < 1 := hb
      interval_cases a
      interval_cases b
      rw [argsC4_bigQ, show Finset.range argsC4.rows = Finset.range 2 from rfl,
        Finset.sum_range_succ, Finset.sum_range_succ, Finset.sum_range_zero]
      norm_num)
    (by
      intro i hi
      have hi1 : i < 1 := hi
      interval_cases i
      rw [argsC4_smallOut]
      norm_num)
    (by
      rw [show Finset.range (totdim argsC4) = Finset.range 1 from rfl, Finset.sum_range_succ,
        Finset.sum_range_zero, argsC4_smallOut]
      rw [frobSq, show Finset.range (totdim argsC4) = Finset.range 1 from rfl,
        show Finset.range argsC4.cols = Finset.range 1 from rfl]
      rw [Finset.sum_range_succ, Finset.sum_range_zero, Finset.sum_range_succ,
        Finset.sum_range_zero, argsC4_smallB]
      norm_num)

end FlashPCA
